import Mathlib

/-!
Verification of the MathJax editor core (`Editor` class, src/index.js).

The DOM is shallowly embedded: a DOM element is a finite tree carrying a
numeric identity (node references in the browser compare by identity, which
we model with the `id` field), a `nodeType` (1 for elements), a tag name,
attributes and an ordered child list.  The editor state keeps the fields of
the `Editor` class that the claims touch.  Utilities imported by the class
from files outside the excerpt (`toDom`, `getCleanCopy`, `isEditable`,
`applyBackspace`, `applyDelete`, the renderer bridge) are modelled from the
specification and marked as such in their doc comments.
-/

set_option autoImplicit false

namespace MathjaxEditor

/-- A DOM node: identity, nodeType (1 = element), tag name, attributes,
ordered children.  Mirrors the tree of `<math>`-rooted elements the editor
mutates. -/
inductive DomNode where
  | mk : Nat → Nat → String → List (String × String) → List DomNode → DomNode

/-- Node identity (models JS reference identity). -/
def DomNode.idOf : DomNode → Nat
  | .mk i _ _ _ _ => i

/-- The DOM `nodeType` field (1 for elements). -/
def DomNode.nodeTypeOf : DomNode → Nat
  | .mk _ nt _ _ _ => nt

/-- The DOM `tagName` field. -/
def DomNode.tagOf : DomNode → String
  | .mk _ _ tag _ _ => tag

/-- The attribute list of a node. -/
def DomNode.attrsOf : DomNode → List (String × String)
  | .mk _ _ _ as _ => as

/-- The ordered child list of a node. -/
def DomNode.childrenOf : DomNode → List DomNode
  | .mk _ _ _ _ cs => cs

/-- `lcc` with one argument (src/utils/lcc): lower-cases a tag name, as used
by `switch (lcc($position.tagName))` (character-wise `toLowerCase`). -/
def lcc (s : String) : String :=
  String.mk (s.data.map Char.toLower)

/-- `lcc` with two arguments: compares a tag name case-insensitively, as used
by `lcc($value.tagName, 'math')`. -/
def lcc2 (a b : String) : Bool :=
  lcc a == b

mutual

/-- All node identities occurring in a tree (preorder). -/
def idsOf : DomNode → List Nat
  | .mk i _ _ _ cs => i :: idsOfList cs

/-- All node identities occurring in a forest. -/
def idsOfList : List DomNode → List Nat
  | [] => []
  | c :: rest => idsOf c ++ idsOfList rest

end

mutual

/-- Locate the node with the given identity (first match, preorder). -/
def findById : DomNode → Nat → Option DomNode
  | .mk i nt tag as cs, q =>
    if i == q then some (.mk i nt tag as cs) else findInList cs q

/-- Locate the node with the given identity in a forest. -/
def findInList : List DomNode → Nat → Option DomNode
  | [], _ => none
  | c :: rest, q =>
    match findById c q with
    | some r => some r
    | none => findInList rest q

end

/-- The child list of the node with the given identity, if present. -/
def childrenOfId (t : DomNode) (q : Nat) : Option (List DomNode) :=
  (findById t q).map DomNode.childrenOf

mutual

/-- `prependElement($position, $el)` resolved through the position node's
identity: the new element becomes the first child of that node. -/
def prependChildById : DomNode → Nat → DomNode → DomNode
  | .mk i nt tag as cs, pid, el =>
    if i == pid then .mk i nt tag as (el :: cs)
    else .mk i nt tag as (prependChildInList cs pid el)

/-- Forest version of `prependChildById`. -/
def prependChildInList : List DomNode → Nat → DomNode → List DomNode
  | [], _, _ => []
  | c :: rest, pid, el => prependChildById c pid el :: prependChildInList rest pid el

end

mutual

/-- `appendElementAfter($position, $el)` resolved through the position node's
identity: the new element becomes the next sibling of that node. -/
def insertAfterById : DomNode → Nat → DomNode → DomNode
  | .mk i nt tag as cs, pid, el => .mk i nt tag as (insertAfterInList cs pid el)

/-- Forest version of `insertAfterById`. -/
def insertAfterInList : List DomNode → Nat → DomNode → List DomNode
  | [], _, _ => []
  | c :: rest, pid, el =>
    if c.idOf == pid then c :: el :: rest
    else insertAfterById c pid el :: insertAfterInList rest pid el

end

/-- `prependElement(this.$value, $el)`: the new element becomes the first
child of the document root. -/
def prependRoot : DomNode → DomNode → DomNode
  | .mk i nt tag as cs, el => .mk i nt tag as (el :: cs)

/-- `appendElement(this.$value, $el)`: the new element becomes the last
child of the document root. -/
def appendRoot : DomNode → DomNode → DomNode
  | .mk i nt tag as cs, el => .mk i nt tag as (cs ++ [el])

mutual

/-- Tag of the parent of the node with the given identity (the first node
whose immediate children contain that identity). -/
def parentTagOfId : DomNode → Nat → Option String
  | .mk _ _ tag _ cs, pid =>
    if cs.any (fun c => c.idOf == pid) then some tag
    else parentTagInList cs pid

/-- Forest version of `parentTagOfId`. -/
def parentTagInList : List DomNode → Nat → Option String
  | [], _ => none
  | c :: rest, pid =>
    match parentTagOfId c pid with
    | some t => some t
    | none => parentTagInList rest pid

end

/-- The fields of the `Editor` class the structural-edit claims touch.
`isEditable` is the imported utility `src/utils/is-editable`, which is not
part of the excerpt; it is kept as an unspecified predicate stored at
construction time. -/
structure Editor where
  value : DomNode
  cursorPos : Option DomNode
  readonly : Bool
  allowNewlines : Bool
  focused : Bool
  isEditable : Option DomNode → Bool

/-- `insert($el, $moveTo)` (src/index.js lines 258-277): readonly guard,
then placement by the lower-cased tag of the cursor node (`mrow` prepends
into it, `math` appends to the document, otherwise insert after), cursor
moves to `$moveTo || $el`, and the editor is focused. -/
def Editor.insert (ed : Editor) (el : DomNode) (moveTo : Option DomNode) : Editor :=
  let pos := ed.cursorPos
  if ed.readonly && !(ed.isEditable pos) then ed
  else
    let value2 :=
      match pos with
      | none => prependRoot ed.value el
      | some p =>
        if lcc p.tagOf == "mrow" then prependChildById ed.value p.idOf el
        else if lcc p.tagOf == "math" then appendRoot ed.value el
        else insertAfterById ed.value p.idOf el
    { ed with value := value2, cursorPos := some (moveTo.getD el), focused := true }

/-- Tag of `$position.parentNode` for a position node: the math root's DOM
parent is the wrapper `div` built in the constructor; every other in-tree
node's parent is found in the tree. -/
def Editor.parentTagOf (ed : Editor) (p : DomNode) : Option String :=
  if p.idOf == ed.value.idOf then some "div"
  else parentTagOfId ed.value p.idOf

/-- Whether `lcc($position.parentNode.tagName, 'math')` holds for a position
node. -/
def Editor.posParentIsMath (ed : Editor) (p : DomNode) : Bool :=
  match ed.parentTagOf p with
  | some t => lcc2 t "math"
  | none => false

/-- The `<mspace linebreak="newline">` element created by `insertNewline`;
`fid` is the fresh identity of the newly created DOM node. -/
def mspaceNewline (fid : Nat) : DomNode :=
  .mk fid 1 "mspace" [("linebreak", "newline")] []

/-- `insertNewline()` (src/index.js lines 284-298): no-op unless
`allowNewlines`; no-op when the position is non-null, its tag is not `math`,
and its parent's tag is not `math`; otherwise inserts a fresh
`<mspace linebreak="newline">` through `insert`. -/
def Editor.insertNewline (ed : Editor) (fid : Nat) : Editor :=
  if !ed.allowNewlines then ed
  else
    let guardReturns :=
      match ed.cursorPos with
      | none => false
      | some p => !(lcc2 p.tagOf "math") && !(ed.posParentIsMath p)
    if guardReturns then ed
    else ed.insert (mspaceNewline fid) none

/-- Argument to `setValue`: either a markup string or a pre-parsed node. -/
inductive EditorValueArg where
  | str : String → EditorValueArg
  | node : DomNode → EditorValueArg

/-- `setValue($value)` (src/index.js lines 355-365): strings go through the
external parser `toDom` (src/utils/to-dom, outside the excerpt, kept as a
parameter); a value that is not an element (`nodeType !== 1`) or whose tag
is not `math` throws, leaving the editor untouched; otherwise the owned root
is replaced and the cursor reset.  Returns the editor state and the thrown
error message, if any. -/
def Editor.setValue (toDom : String → DomNode) (ed : Editor) (arg : EditorValueArg) :
    Editor × Option String :=
  let v := match arg with | .str s => toDom s | .node n => n
  if v.nodeTypeOf != 1 || !(lcc2 v.tagOf "math") then
    (ed, some "MathjaxEditor: the value must be an <math> element.")
  else
    ({ ed with value := v, cursorPos := none }, none)

/-- `String.prototype.trim()`: strip leading and trailing whitespace
(character-wise, as JS does). -/
def trimString (s : String) : String :=
  String.mk (((s.data.dropWhile Char.isWhitespace).reverse.dropWhile
    Char.isWhitespace).reverse)

/-- `handleInput` (src/index.js lines 136-142): reads the hidden input's
buffer, trims it, clears the buffer, and emits the `@input` event with the
trimmed content when it is non-empty.  Returns the value written back to the
input surface and the emitted event payload (if any). -/
def handleInput (buf : String) : String × Option String :=
  let input := trimString buf
  ("", if input.length != 0 then some input else none)

theorem string_length_eq_zero_iff (s : String) : s.length = 0 ↔ s = "" := by
  cases s with
  | mk data =>
    simp [String.length, String.ext_iff]

/-- C8: on every keystroke the buffer is cleared (only the empty string is
written back), and the `@input` event fires with the trimmed buffer exactly
when the trimmed buffer is non-empty. -/
theorem handleInput_spec (buf : String) :
    (handleInput buf).1 = "" ∧
    ((handleInput buf).2 = some (trimString buf) ↔ trimString buf ≠ "") ∧
    ((handleInput buf).2 ≠ none → (handleInput buf).2 = some (trimString buf)) := by
  refine ⟨rfl, ?_, ?_⟩ <;> simp only [handleInput]
  · constructor
    · intro h
      by_contra hempty
      rw [hempty] at h
      simp at h
    · intro h
      have : (trimString buf).length ≠ 0 := fun hz =>
        h ((string_length_eq_zero_iff _).mp hz)
      simp [this]
  · intro h
    by_cases hz : (trimString buf).length != 0
    · simp [hz]
    · simp [hz] at h

/-- C8 witness: a concrete padded keystroke buffer is cleared and its
trimmed content emitted. -/
theorem handleInput_spec_witness :
    (handleInput "  x  ").1 = "" ∧ (handleInput "  x  ").2 = some "x" :=
  ⟨(handleInput_spec "  x  ").1,
    by
      have h := ((handleInput_spec "  x  ").2.1).mpr (by decide)
      simpa using h⟩

/-- Simultaneous induction over trees and forests, from the nested
recursor. -/
theorem domNode_induction (P : DomNode → Prop) (Q : List DomNode → Prop)
    (hmk : ∀ i nt tag as cs, Q cs → P (DomNode.mk i nt tag as cs))
    (hnil : Q []) (hcons : ∀ c rest, P c → Q rest → Q (c :: rest)) :
    (∀ t, P t) ∧ ∀ cs, Q cs := by
  have ht : ∀ t, P t := fun t => DomNode.rec hmk hnil hcons t
  refine ⟨ht, ?_⟩
  intro cs
  induction cs with
  | nil => exact hnil
  | cons c rest ih => exact hcons c rest (ht c) ih

@[simp]
theorem idsOf_mk (i nt : Nat) (tag : String) (as : List (String × String))
    (cs : List DomNode) : idsOf (.mk i nt tag as cs) = i :: idsOfList cs := rfl

@[simp]
theorem idsOfList_nil : idsOfList [] = [] := rfl

@[simp]
theorem idsOfList_cons (c : DomNode) (rest : List DomNode) :
    idsOfList (c :: rest) = idsOf c ++ idsOfList rest := rfl

theorem idsOfList_append (l1 l2 : List DomNode) :
    idsOfList (l1 ++ l2) = idsOfList l1 ++ idsOfList l2 := by
  induction l1 with
  | nil => simp
  | cons c rest ih => simp [ih]

theorem idOf_mem_idsOf (t : DomNode) : t.idOf ∈ idsOf t := by
  cases t with
  | mk i nt tag as cs => simp [DomNode.idOf]

theorem findById_mk (i nt : Nat) (tag : String) (as : List (String × String))
    (cs : List DomNode) (q : Nat) :
    findById (.mk i nt tag as cs) q =
      if i == q then some (.mk i nt tag as cs) else findInList cs q := rfl

@[simp]
theorem findInList_nil (q : Nat) : findInList [] q = none := rfl

theorem findInList_cons (c : DomNode) (rest : List DomNode) (q : Nat) :
    findInList (c :: rest) q =
      match findById c q with
      | some r => some r
      | none => findInList rest q := rfl

/-- `findById` fails exactly on identities absent from the tree. -/
theorem find_none_iff :
    (∀ t, ∀ q : Nat, (findById t q = none ↔ q ∉ idsOf t)) ∧
    (∀ cs, ∀ q : Nat, (findInList cs q = none ↔ q ∉ idsOfList cs)) := by
  apply domNode_induction
  · intro i nt tag as cs ih q
    rw [findById_mk]
    by_cases hq : i = q
    · subst hq
      simp
    · simp only [beq_iff_eq, hq, if_false, ih q, idsOf_mk, List.mem_cons]
      constructor
      · intro h hin
        rcases hin with hin | hin
        · exact hq hin.symm
        · exact h hin
      · intro h hin
        exact h (Or.inr hin)
  · intro q
    simp
  · intro c rest ihc ihr q
    rw [findInList_cons]
    cases hf : findById c q with
    | some r =>
      simp only []
      constructor
      · intro h
        exact absurd h (by simp)
      · intro h
        have := (ihc q).mpr (fun hin => h (by simp [hin]))
        rw [this] at hf
        exact absurd hf (by simp)
    | none =>
      have hc := (ihc q).mp hf
      simp only [ihr q, idsOfList_cons, List.mem_append]
      constructor
      · intro h hin
        rcases hin with hin | hin
        · exact hc hin
        · exact h hin
      · intro h hin
        exact h (Or.inr hin)

/-- A found node carries the identity it was looked up by. -/
theorem find_some_id :
    (∀ t, ∀ q : Nat, ∀ r, findById t q = some r → r.idOf = q) ∧
    (∀ cs, ∀ q : Nat, ∀ r, findInList cs q = some r → r.idOf = q) := by
  apply domNode_induction
  · intro i nt tag as cs ih q r h
    rw [findById_mk] at h
    by_cases hq : i = q
    · subst hq
      simp at h
      subst h
      rfl
    · simp only [beq_iff_eq, hq, if_false] at h
      exact ih q r h
  · intro q r h
    simp at h
  · intro c rest ihc ihr q r h
    rw [findInList_cons] at h
    cases hf : findById c q with
    | some s =>
      rw [hf] at h
      simp at h
      subst h
      exact ihc q s hf
    | none =>
      rw [hf] at h
      simp only [] at h
      exact ihr q r h

/-- The identities of a found subtree are identities of the whole tree. -/
theorem find_some_ids_sub :
    (∀ t, ∀ q : Nat, ∀ r, findById t q = some r → ∀ x, x ∈ idsOf r → x ∈ idsOf t) ∧
    (∀ cs, ∀ q : Nat, ∀ r, findInList cs q = some r → ∀ x, x ∈ idsOf r → x ∈ idsOfList cs) := by
  apply domNode_induction
  · intro i nt tag as cs ih q r h x hx
    rw [findById_mk] at h
    by_cases hq : i = q
    · subst hq
      simp at h
      subst h
      exact hx
    · simp only [beq_iff_eq, hq, if_false] at h
      simp only [idsOf_mk, List.mem_cons]
      exact Or.inr (ih q r h x hx)
  · intro q r h
    simp at h
  · intro c rest ihc ihr q r h x hx
    rw [findInList_cons] at h
    cases hf : findById c q with
    | some s =>
      rw [hf] at h
      simp at h
      subst h
      simp only [idsOfList_cons, List.mem_append]
      exact Or.inl (ihc q s hf x hx)
    | none =>
      rw [hf] at h
      simp only [] at h
      simp only [idsOfList_cons, List.mem_append]
      exact Or.inr (ihr q r h x hx)

/-- In a duplicate-free tree, found subtrees are duplicate-free. -/
theorem find_some_nodup :
    (∀ t, (idsOf t).Nodup → ∀ q : Nat, ∀ r, findById t q = some r → (idsOf r).Nodup) ∧
    (∀ cs, (idsOfList cs).Nodup → ∀ q : Nat, ∀ r, findInList cs q = some r → (idsOf r).Nodup) := by
  apply domNode_induction
  · intro i nt tag as cs ih hnd q r h
    rw [findById_mk] at h
    by_cases hq : i = q
    · subst hq
      simp at h
      subst h
      exact hnd
    · simp only [beq_iff_eq, hq, if_false] at h
      exact ih (by simpa using hnd.of_cons) q r h
  · intro _ q r h
    simp at h
  · intro c rest ihc ihr hnd q r h
    rw [findInList_cons] at h
    rw [idsOfList_cons, List.nodup_append] at hnd
    cases hf : findById c q with
    | some s =>
      rw [hf] at h
      simp at h
      subst h
      exact ihc hnd.1 q s hf
    | none =>
      rw [hf] at h
      simp only [] at h
      exact ihr hnd.2.1 q r h

theorem insertAfterById_mk (i nt : Nat) (tag : String) (as : List (String × String))
    (cs : List DomNode) (pid : Nat) (el : DomNode) :
    insertAfterById (.mk i nt tag as cs) pid el =
      .mk i nt tag as (insertAfterInList cs pid el) := rfl

@[simp]
theorem insertAfterInList_nil (pid : Nat) (el : DomNode) :
    insertAfterInList [] pid el = [] := rfl

theorem insertAfterInList_cons (c : DomNode) (rest : List DomNode) (pid : Nat)
    (el : DomNode) :
    insertAfterInList (c :: rest) pid el =
      if c.idOf == pid then c :: el :: rest
      else insertAfterById c pid el :: insertAfterInList rest pid el := rfl

theorem prependChildById_mk (i nt : Nat) (tag : String) (as : List (String × String))
    (cs : List DomNode) (pid : Nat) (el : DomNode) :
    prependChildById (.mk i nt tag as cs) pid el =
      if i == pid then .mk i nt tag as (el :: cs)
      else .mk i nt tag as (prependChildInList cs pid el) := rfl

@[simp]
theorem prependChildInList_nil (pid : Nat) (el : DomNode) :
    prependChildInList [] pid el = [] := rfl

theorem prependChildInList_cons (c : DomNode) (rest : List DomNode) (pid : Nat)
    (el : DomNode) :
    prependChildInList (c :: rest) pid el =
      prependChildById c pid el :: prependChildInList rest pid el := rfl

/-- Inserting after an identity absent from the tree changes nothing. -/
theorem insertAfter_absent :
    (∀ t, ∀ pid : Nat, ∀ el, pid ∉ idsOf t → insertAfterById t pid el = t) ∧
    (∀ cs, ∀ pid : Nat, ∀ el, pid ∉ idsOfList cs → insertAfterInList cs pid el = cs) := by
  apply domNode_induction
  · intro i nt tag as cs ih pid el h
    rw [insertAfterById_mk]
    have := ih pid el (fun hin => h (by simp [hin]))
    rw [this]
  · intro pid el _
    rfl
  · intro c rest ihc ihr pid el h
    simp only [idsOfList_cons, List.mem_append] at h
    push_neg at h
    have hc : c.idOf ≠ pid := fun he => h.1 (he ▸ idOf_mem_idsOf c)
    rw [insertAfterInList_cons, if_neg (by simp [hc]), ihc pid el h.1, ihr pid el h.2]

/-- Prepending into an identity absent from the tree changes nothing. -/
theorem prependChild_absent :
    (∀ t, ∀ pid : Nat, ∀ el, pid ∉ idsOf t → prependChildById t pid el = t) ∧
    (∀ cs, ∀ pid : Nat, ∀ el, pid ∉ idsOfList cs → prependChildInList cs pid el = cs) := by
  apply domNode_induction
  · intro i nt tag as cs ih pid el h
    simp only [idsOf_mk, List.mem_cons] at h
    push_neg at h
    rw [prependChildById_mk, if_neg (by simp [Ne.symm h.1]), ih pid el h.2]
  · intro pid el _
    rfl
  · intro c rest ihc ihr pid el h
    simp only [idsOfList_cons, List.mem_append] at h
    push_neg at h
    rw [prependChildInList_cons, ihc pid el h.1, ihr pid el h.2]

/-- Identities after an insert-after come from the tree or the new node. -/
theorem insertAfter_ids_sub :
    (∀ t, ∀ pid : Nat, ∀ el, ∀ x, x ∈ idsOf (insertAfterById t pid el) →
      x ∈ idsOf t ∨ x ∈ idsOf el) ∧
    (∀ cs, ∀ pid : Nat, ∀ el, ∀ x, x ∈ idsOfList (insertAfterInList cs pid el) →
      x ∈ idsOfList cs ∨ x ∈ idsOf el) := by
  apply domNode_induction
  · intro i nt tag as cs ih pid el x hx
    rw [insertAfterById_mk] at hx
    simp only [idsOf_mk, List.mem_cons] at hx ⊢
    rcases hx with hx | hx
    · exact Or.inl (Or.inl hx)
    · rcases ih pid el x hx with h | h
      · exact Or.inl (Or.inr h)
      · exact Or.inr h
  · intro pid el x hx
    simp at hx
  · intro c rest ihc ihr pid el x hx
    rw [insertAfterInList_cons] at hx
    by_cases hcp : c.idOf == pid
    · rw [if_pos hcp] at hx
      simp only [idsOfList_cons, List.mem_append] at hx ⊢
      rcases hx with hx | hx | hx
      · exact Or.inl (Or.inl hx)
      · exact Or.inr hx
      · exact Or.inl (Or.inr hx)
    · rw [if_neg hcp] at hx
      simp only [idsOfList_cons, List.mem_append] at hx ⊢
      rcases hx with hx | hx
      · rcases ihc pid el x hx with h | h
        · exact Or.inl (Or.inl h)
        · exact Or.inr h
      · rcases ihr pid el x hx with h | h
        · exact Or.inl (Or.inr h)
        · exact Or.inr h

/-- Identities after a prepend-into come from the tree or the new node. -/
theorem prependChild_ids_sub :
    (∀ t, ∀ pid : Nat, ∀ el, ∀ x, x ∈ idsOf (prependChildById t pid el) →
      x ∈ idsOf t ∨ x ∈ idsOf el) ∧
    (∀ cs, ∀ pid : Nat, ∀ el, ∀ x, x ∈ idsOfList (prependChildInList cs pid el) →
      x ∈ idsOfList cs ∨ x ∈ idsOf el) := by
  apply domNode_induction
  · intro i nt tag as cs ih pid el x hx
    rw [prependChildById_mk] at hx
    by_cases hip : i == pid
    · rw [if_pos hip] at hx
      simp only [idsOf_mk, idsOfList_cons, List.mem_cons, List.mem_append] at hx ⊢
      rcases hx with hx | hx | hx
      · exact Or.inl (Or.inl hx)
      · exact Or.inr hx
      · exact Or.inl (Or.inr hx)
    · rw [if_neg hip] at hx
      simp only [idsOf_mk, List.mem_cons] at hx ⊢
      rcases hx with hx | hx
      · exact Or.inl (Or.inl hx)
      · rcases ih pid el x hx with h | h
        · exact Or.inl (Or.inr h)
        · exact Or.inr h
  · intro pid el x hx
    simp at hx
  · intro c rest ihc ihr pid el x hx
    rw [prependChildInList_cons] at hx
    simp only [idsOfList_cons, List.mem_append] at hx ⊢
    rcases hx with hx | hx
    · rcases ihc pid el x hx with h | h
      · exact Or.inl (Or.inl h)
      · exact Or.inr h
    · rcases ihr pid el x hx with h | h
      · exact Or.inl (Or.inr h)
      · exact Or.inr h

/-- On a duplicate-free tree, lookup after insert-after finds the rewritten
subtree (the new element's identities being fresh). -/
theorem insertAfter_find_map :
    (∀ t, ∀ pid : Nat, ∀ el, ∀ q : Nat, (idsOf t).Nodup → q ∉ idsOf el →
      findById (insertAfterById t pid el) q =
        (findById t q).map (fun r => insertAfterById r pid el)) ∧
    (∀ cs, ∀ pid : Nat, ∀ el, ∀ q : Nat, (idsOfList cs).Nodup → q ∉ idsOf el →
      findInList (insertAfterInList cs pid el) q =
        (findInList cs q).map (fun r => insertAfterById r pid el)) := by
  apply domNode_induction
  · intro i nt tag as cs ih pid el q hnd hq
    simp only [idsOf_mk] at hnd
    rw [insertAfterById_mk, findById_mk, findById_mk]
    by_cases hiq : i == q
    · rw [if_pos hiq, if_pos hiq]
      simp [insertAfterById_mk]
    · rw [if_neg hiq, if_neg hiq]
      exact ih pid el q hnd.of_cons hq
  · intro pid el q _ _
    rfl
  · intro c rest ihc ihr pid el q hnd hq
    simp only [idsOfList_cons] at hnd
    rw [List.nodup_append] at hnd
    obtain ⟨nc, nr, disj⟩ := hnd
    rw [insertAfterInList_cons]
    by_cases hcp : c.idOf == pid
    · rw [if_pos hcp]
      have hcp2 : c.idOf = pid := by simpa using hcp
      have hel : findById el q = none := (find_none_iff.1 el q).mpr hq
      cases hf : findById c q with
      | some r =>
        have hfr : insertAfterById r pid el = r := by
          cases c with
          | mk ic ntc tagc asc csc =>
            have hic : ic = pid := by simpa [DomNode.idOf] using hcp2
            have hnotin : ic ∉ idsOfList csc := by
              simp only [idsOf_mk] at nc
              exact (List.nodup_cons.mp nc).1
            rw [findById_mk] at hf
            by_cases hicq : ic == q
            · rw [if_pos hicq] at hf
              have hr := Option.some.inj hf
              subst hr
              rw [insertAfterById_mk, insertAfter_absent.2 csc pid el (hic ▸ hnotin)]
            · rw [if_neg hicq] at hf
              have hsub := find_some_ids_sub.2 csc q r hf
              exact insertAfter_absent.1 r pid el
                (fun hin => hnotin (hic ▸ hsub pid hin))
        simp only [findInList_cons, hf, hel, Option.map_some', hfr]
      | none =>
        simp only [findInList_cons, hf, hel]
        cases hfr2 : findInList rest q with
        | some r =>
          have hsub := find_some_ids_sub.2 rest q r hfr2
          have hnotin : pid ∉ idsOf r := fun hin =>
            disj (hcp2 ▸ idOf_mem_idsOf c) (hsub pid hin)
          simp only [Option.map_some', insertAfter_absent.1 r pid el hnotin]
        | none =>
          simp only [Option.map_none']
    · rw [if_neg hcp]
      cases hf : findById c q with
      | some r =>
        simp only [findInList_cons, ihc pid el q nc hq, hf, Option.map_some']
      | none =>
        simp only [findInList_cons, ihc pid el q nc hq, hf, Option.map_none']
        exact ihr pid el q nr hq

/-- On a duplicate-free tree, lookup after prepend-into finds the rewritten
subtree (the new element's identities being fresh). -/
theorem prependChild_find_map :
    (∀ t, ∀ pid : Nat, ∀ el, ∀ q : Nat, (idsOf t).Nodup → q ∉ idsOf el →
      findById (prependChildById t pid el) q =
        (findById t q).map (fun r => prependChildById r pid el)) ∧
    (∀ cs, ∀ pid : Nat, ∀ el, ∀ q : Nat, (idsOfList cs).Nodup → q ∉ idsOf el →
      findInList (prependChildInList cs pid el) q =
        (findInList cs q).map (fun r => prependChildById r pid el)) := by
  apply domNode_induction
  · intro i nt tag as cs ih pid el q hnd hq
    simp only [idsOf_mk] at hnd
    have hnotin : i ∉ idsOfList cs := (List.nodup_cons.mp hnd).1
    rw [prependChildById_mk]
    by_cases hip : i == pid
    · rw [if_pos hip]
      have hip2 : i = pid := by simpa using hip
      have hel : findById el q = none := (find_none_iff.1 el q).mpr hq
      rw [findById_mk, findById_mk]
      by_cases hiq : i == q
      · rw [if_pos hiq, if_pos hiq]
        simp only [Option.map_some']
        rw [prependChildById_mk, if_pos hip]
      · rw [if_neg hiq, if_neg hiq]
        cases hf : findInList cs q with
        | some r =>
          have hsub := find_some_ids_sub.2 cs q r hf
          simp only [findInList_cons, hel, hf, Option.map_some',
            prependChild_absent.1 r pid el (fun hin => hnotin (hip2 ▸ hsub pid hin))]
        | none =>
          simp only [findInList_cons, hel, hf, Option.map_none']
    · rw [if_neg hip]
      rw [findById_mk, findById_mk]
      by_cases hiq : i == q
      · rw [if_pos hiq, if_pos hiq]
        simp only [Option.map_some']
        rw [prependChildById_mk, if_neg hip]
      · rw [if_neg hiq, if_neg hiq]
        exact ih pid el q hnd.of_cons hq
  · intro pid el q _ _
    rfl
  · intro c rest ihc ihr pid el q hnd hq
    simp only [idsOfList_cons] at hnd
    rw [List.nodup_append] at hnd
    obtain ⟨nc, nr, _⟩ := hnd
    rw [prependChildInList_cons]
    cases hf : findById c q with
    | some r =>
      simp only [findInList_cons, ihc pid el q nc hq, hf, Option.map_some']
    | none =>
      simp only [findInList_cons, ihc pid el q nc hq, hf, Option.map_none']
      exact ihr pid el q nr hq

/-- Insert-after at the list where the target sits: the new element lands
right after the target sibling. -/
theorem insertAfterInList_at (pre post : List DomNode) (c el : DomNode) (pid : Nat)
    (hc : c.idOf = pid) (hpre : pid ∉ idsOfList pre) :
    insertAfterInList (pre ++ c :: post) pid el = pre ++ c :: el :: post := by
  induction pre with
  | nil =>
    simp only [List.nil_append]
    rw [insertAfterInList_cons, if_pos (by simp [hc])]
  | cons x rest ih =>
    simp only [idsOfList_cons, List.mem_append] at hpre
    push_neg at hpre
    have hx : x.idOf ≠ pid := fun he => hpre.1 (he ▸ idOf_mem_idsOf x)
    rw [List.cons_append, insertAfterInList_cons, if_neg (by simp [hx]),
      insertAfter_absent.1 x pid el hpre.1, ih hpre.2]
    rfl

/-- A leaf symbol element, for concrete instances. -/
def symbolNode (i : Nat) : DomNode :=
  .mk i 1 "mi" [] []

/-- A concrete document: `<math><mi/><mi/></math>`. -/
def mathRootEx : DomNode :=
  .mk 0 1 "math" [] [symbolNode 1, symbolNode 2]

/-- A concrete default-options editor over `mathRootEx`. -/
def edEx : Editor :=
  { value := mathRootEx, cursorPos := some (symbolNode 1), readonly := false,
    allowNewlines := false, focused := false, isEditable := fun _ => true }

/-- A concrete readonly editor whose position is not editable. -/
def edRO : Editor :=
  { value := mathRootEx, cursorPos := some (symbolNode 1), readonly := true,
    allowNewlines := false, focused := false, isEditable := fun _ => false }

/-- A concrete editor with `allowNewlines` and no cursor position. -/
def edNL : Editor :=
  { value := mathRootEx, cursorPos := none, readonly := false,
    allowNewlines := true, focused := false, isEditable := fun _ => true }

/-- A parser yielding a non-element node (e.g. a text node), for the
malformed-input instance of `setValue`. -/
def toDomText (s : String) : DomNode :=
  .mk 5 3 s [] []

@[simp]
theorem prependRoot_childrenOf (t el : DomNode) :
    (prependRoot t el).childrenOf = el :: t.childrenOf := by
  cases t
  rfl

@[simp]
theorem appendRoot_childrenOf (t el : DomNode) :
    (appendRoot t el).childrenOf = t.childrenOf ++ [el] := by
  cases t
  rfl

/-- C1 (amended): unless the readonly guard fires, `insert` places the new
element by the kind of the node at the cursor — prepended inside an `mrow`
position node, appended to the document for a `math` position node,
prepended to the document when there is no position, and immediately after
the position node otherwise — and the cursor afterwards references `moveTo`
when supplied, else the inserted node. -/
theorem insert_placement_spec (ed : Editor) (el : DomNode) (moveTo : Option DomNode)
    (hguard : ¬(ed.readonly = true ∧ ed.isEditable ed.cursorPos = false))
    (hnodup : (idsOf ed.value).Nodup)
    (hel : ∀ x, x ∈ idsOf el → x ∉ idsOf ed.value) :
    (ed.insert el moveTo).cursorPos = some (moveTo.getD el) ∧
    (ed.cursorPos = none →
      (ed.insert el moveTo).value.childrenOf = el :: ed.value.childrenOf) ∧
    (∀ p, ed.cursorPos = some p → lcc p.tagOf = "mrow" →
      ∀ cs, childrenOfId ed.value p.idOf = some cs →
        childrenOfId (ed.insert el moveTo).value p.idOf = some (el :: cs)) ∧
    (∀ p, ed.cursorPos = some p → lcc p.tagOf = "math" →
      (ed.insert el moveTo).value.childrenOf = ed.value.childrenOf ++ [el]) ∧
    (∀ p, ed.cursorPos = some p → lcc p.tagOf ≠ "mrow" → lcc p.tagOf ≠ "math" →
      ∀ qid pre c post, childrenOfId ed.value qid = some (pre ++ c :: post) →
        c.idOf = p.idOf →
        childrenOfId (ed.insert el moveTo).value qid =
          some (pre ++ c :: el :: post)) := by
  have hg : (ed.readonly && !(ed.isEditable ed.cursorPos)) = false := by
    cases hro : ed.readonly with
    | false => rfl
    | true =>
      cases hie : ed.isEditable ed.cursorPos with
      | false => exact absurd ⟨hro, hie⟩ hguard
      | true => simp [hie]
  refine ⟨?_, ?_, ?_, ?_, ?_⟩
  · simp only [Editor.insert, hg, Bool.false_eq_true, if_false]
  · intro h
    have hg2 : (ed.readonly && !(ed.isEditable none)) = false := by
      rw [← h]
      exact hg
    have hval : (ed.insert el moveTo).value = prependRoot ed.value el := by
      simp [Editor.insert, h, hg2]
    rw [hval, prependRoot_childrenOf]
  · intro p hp htag cs hcs
    have hg2 : (ed.readonly && !(ed.isEditable (some p))) = false := by
      rw [← hp]
      exact hg
    obtain ⟨r, hr, hrc⟩ := Option.map_eq_some'.mp hcs
    have hpin : p.idOf ∈ idsOf ed.value := by
      by_contra hno
      rw [(find_none_iff.1 ed.value p.idOf).mpr hno] at hr
      exact absurd hr (by simp)
    have hq : p.idOf ∉ idsOf el := fun hin => hel p.idOf hin hpin
    have hrid : r.idOf = p.idOf := find_some_id.1 ed.value p.idOf r hr
    have hval : (ed.insert el moveTo).value = prependChildById ed.value p.idOf el := by
      simp [Editor.insert, hp, hg2, htag]
    rw [hval, childrenOfId,
      prependChild_find_map.1 ed.value p.idOf el p.idOf hnodup hq, hr,
      Option.map_some']
    cases r with
    | mk ir ntr tagr asr csr =>
      have hir : ir = p.idOf := by simpa [DomNode.idOf] using hrid
      rw [prependChildById_mk, if_pos (by simp [hir])]
      have hcsr : csr = cs := hrc
      rw [hcsr]
      rfl
  · intro p hp htag
    have hg2 : (ed.readonly && !(ed.isEditable (some p))) = false := by
      rw [← hp]
      exact hg
    have hval : (ed.insert el moveTo).value = appendRoot ed.value el := by
      simp [Editor.insert, hp, hg2, htag]
    rw [hval, appendRoot_childrenOf]
  · intro p hp ht1 ht2 qid pre c post hcs hcid
    have hg2 : (ed.readonly && !(ed.isEditable (some p))) = false := by
      rw [← hp]
      exact hg
    have hb1 : (lcc p.tagOf == "mrow") = false := beq_eq_false_iff_ne.mpr ht1
    have hb2 : (lcc p.tagOf == "math") = false := beq_eq_false_iff_ne.mpr ht2
    obtain ⟨qn, hqn, hqnc⟩ := Option.map_eq_some'.mp hcs
    have hqin : qid ∈ idsOf ed.value := by
      by_contra hno
      rw [(find_none_iff.1 ed.value qid).mpr hno] at hqn
      exact absurd hqn (by simp)
    have hq : qid ∉ idsOf el := fun hin => hel qid hin hqin
    have hnodupq : (idsOf qn).Nodup := find_some_nodup.1 ed.value hnodup qid qn hqn
    have hval : (ed.insert el moveTo).value = insertAfterById ed.value p.idOf el := by
      simp [Editor.insert, hp, hg2, hb1, hb2]
    rw [hval, childrenOfId,
      insertAfter_find_map.1 ed.value p.idOf el qid hnodup hq, hqn,
      Option.map_some']
    cases qn with
    | mk iq ntq tagq asq csq =>
      have hcsq : csq = pre ++ c :: post := hqnc
      subst hcsq
      have hnodupcs : (idsOfList (pre ++ c :: post)).Nodup := by
        simpa using hnodupq.of_cons
      have hpre : p.idOf ∉ idsOfList pre := by
        intro hin
        rw [idsOfList_append] at hnodupcs
        rcases List.nodup_append.mp hnodupcs with ⟨_, _, hdisj⟩
        exact hdisj hin (by simp [← hcid, idOf_mem_idsOf c])
      rw [insertAfterById_mk, insertAfterInList_at pre post c el p.idOf hcid hpre]
      rfl

/-- C1 counterexample: on a readonly editor whose position is not editable,
the cursor does not end up at the inserted node (insert is a guarded
no-op), refuting the unconditional placement claim. -/
theorem insert_placement_counterexample :
    (edRO.insert (symbolNode 9) none).cursorPos ≠ some (symbolNode 9) := by
  have hg : edRO.insert (symbolNode 9) none = edRO := by
    unfold Editor.insert
    simp [edRO]
  rw [hg]
  intro h
  have h2 := congrArg (Option.map DomNode.idOf) h
  simp [edRO, symbolNode, DomNode.idOf] at h2

/-- C1 witness: inserting at a leaf position of a concrete document places
the element right after the position node and moves the cursor to it. -/
theorem insert_placement_spec_witness :
    childrenOfId (edEx.insert (symbolNode 9) none).value 0 =
      some [symbolNode 1, symbolNode 9, symbolNode 2] ∧
    (edEx.insert (symbolNode 9) none).cursorPos = some (symbolNode 9) := by
  have h := insert_placement_spec edEx (symbolNode 9) none
    (by simp [edEx]) (by decide) (by decide)
  refine ⟨?_, h.1⟩
  have h5 := h.2.2.2.2 (symbolNode 1) rfl (by decide) (by decide)
    0 [] (symbolNode 1) [symbolNode 2] rfl rfl
  simpa using h5

/-- C2: `setValue` parses strings through `toDom`; when the result is not an
element of tag `math` it throws and the held tree is completely unchanged;
it replaces the owned root exactly when the value is a well-formed `math`
element. -/
theorem setValue_spec (toDom : String → DomNode) (ed : Editor) (arg : EditorValueArg) :
    ((ed.setValue toDom arg).2.isSome → (ed.setValue toDom arg).1 = ed) ∧
    ((ed.setValue toDom arg).2 = none ↔
      ((match arg with | .str s => toDom s | .node n => n).nodeTypeOf = 1 ∧
        lcc2 (match arg with | .str s => toDom s | .node n => n).tagOf "math" = true)) ∧
    ((ed.setValue toDom arg).2 = none →
      (ed.setValue toDom arg).1.value =
        (match arg with | .str s => toDom s | .node n => n)) := by
  unfold Editor.setValue
  by_cases h :
      ((match arg with | .str s => toDom s | .node n => n).nodeTypeOf != 1 ||
        !(lcc2 (match arg with | .str s => toDom s | .node n => n).tagOf "math")) = true
  · refine ⟨fun _ => by simp [h], ?_, fun hc => by simp [h] at hc⟩
    simp only [h, if_pos rfl]
    constructor
    · intro hc; exact absurd hc (by simp)
    · intro hc
      rcases hc with ⟨h1, h2⟩
      simp [h1, h2] at h
  · have h2 := eq_false_of_ne_true h
    rcases Bool.or_eq_false_iff.mp h2 with ⟨ha, hb⟩
    have ha2 := by simpa using ha
    have hb2 := by simpa using hb
    simp [h, ha2, hb2]

/-- C2 witness: a parsed text node is rejected and the editor is unchanged. -/
theorem setValue_spec_witness :
    (edEx.setValue toDomText (.str "oops")).2.isSome = true ∧
    (edEx.setValue toDomText (.str "oops")).1 = edEx :=
  ⟨by rfl, (setValue_spec toDomText edEx (.str "oops")).1 (by rfl)⟩

/-- C10: on a readonly editor whose current position is not editable,
`insert` leaves the tree, the cursor position and the focus state
unchanged. -/
theorem insert_readonly_frame (ed : Editor) (el : DomNode) (moveTo : Option DomNode)
    (hro : ed.readonly = true) (hed : ed.isEditable ed.cursorPos = false) :
    (ed.insert el moveTo).value = ed.value ∧
    (ed.insert el moveTo).cursorPos = ed.cursorPos ∧
    (ed.insert el moveTo).focused = ed.focused := by
  have h : ed.insert el moveTo = ed := by
    unfold Editor.insert
    simp [hro, hed]
  rw [h]
  exact ⟨rfl, rfl, rfl⟩

/-- C10 witness: the readonly guard en route, on a concrete editor. -/
theorem insert_readonly_frame_witness :
    edRO.readonly = true ∧ edRO.isEditable edRO.cursorPos = false ∧
    ((edRO.insert (symbolNode 9) none).value = edRO.value ∧
      (edRO.insert (symbolNode 9) none).cursorPos = edRO.cursorPos ∧
      (edRO.insert (symbolNode 9) none).focused = edRO.focused) :=
  ⟨rfl, rfl, insert_readonly_frame edRO (symbolNode 9) none rfl rfl⟩

/-- C9: `insertNewline` is a no-op when `allowNewlines` is off, and when the
position is non-none with neither the node nor its parent tagged `math`;
otherwise it inserts exactly one `<mspace linebreak="newline">` through
`insert`. -/
theorem insertNewline_spec (ed : Editor) (fid : Nat) :
    (ed.allowNewlines = false → ed.insertNewline fid = ed) ∧
    (∀ p, ed.allowNewlines = true → ed.cursorPos = some p →
      lcc2 p.tagOf "math" = false → ed.posParentIsMath p = false →
      ed.insertNewline fid = ed) ∧
    (ed.allowNewlines = true → ed.cursorPos = none →
      ed.insertNewline fid = ed.insert (mspaceNewline fid) none) ∧
    (∀ p, ed.allowNewlines = true → ed.cursorPos = some p →
      (lcc2 p.tagOf "math" = true ∨ ed.posParentIsMath p = true) →
      ed.insertNewline fid = ed.insert (mspaceNewline fid) none) := by
  refine ⟨fun h => by simp [Editor.insertNewline, h], ?_, ?_, ?_⟩
  · intro p hn hp h1 h2
    simp [Editor.insertNewline, hn, hp, h1, h2]
  · intro hn hp
    simp [Editor.insertNewline, hn, hp]
  · intro p hn hp h
    rcases h with h | h <;> simp [Editor.insertNewline, hn, hp, h]

/-- C9 witness: with newlines allowed and no position, the mspace is
inserted through `insert`. -/
theorem insertNewline_spec_witness :
    edNL.allowNewlines = true ∧ edNL.cursorPos = none ∧
    edNL.insertNewline 7 = edNL.insert (mspaceNewline 7) none :=
  ⟨rfl, rfl, (insertNewline_spec edNL 7).2.2.1 rfl rfl⟩

/-- An in-flight renderer round-trip: the generation at which it was issued
and the serialized markup submitted to the renderer. -/
structure Job where
  gen : Nat
  payload : String
deriving DecidableEq

/-- The asynchronous facet of the editor.  `treeValue` abstracts the
serialized current tree, `displayed` the renderer's visual output,
`geometry` the tree state the Geometry Map was last rebuilt from,
`caretUpdates` and `serials` count the `cursor.update()` / serialization
effects, `pending` the in-flight renderer round-trips.  `destroyed` is a
specification marker set by `destroy()`; the `Editor` class itself keeps no
such flag. -/
structure AsyncState where
  elementJax : Bool
  treeValue : String
  displayed : String
  geometry : String
  caretUpdates : Nat
  serials : Nat
  pending : List Job
  nextGen : Nat
  destroyed : Bool
  blinkerAlive : Bool
  windowResizeListener : Bool
  containerAttached : Bool
deriving DecidableEq

/-- Modelled from the spec: `toDisplay` (src/utils/to-display, outside the
excerpt) serializes the tree for the renderer, "inserting a placeholder
glyph when the document is empty". -/
def toDisplay (v ph : String) : String :=
  if v = "" then ph else v

/-- A synchronous tree edit between update calls. -/
def editTree (v : String) (s : AsyncState) : AsyncState :=
  { s with treeValue := v }

/-- `update()` (src/index.js lines 203-224): with no element jax it resolves
at once doing nothing; otherwise it serializes the tree, submits it to the
renderer and registers the completion callback.  Returns the new state and
whether the promise resolved synchronously. -/
def updateCall (ph : String) (s : AsyncState) : AsyncState × Bool :=
  if !s.elementJax then (s, true)
  else
    ({ s with
        serials := s.serials + 1,
        pending := s.pending ++ [⟨s.nextGen, toDisplay s.treeValue ph⟩],
        nextGen := s.nextGen + 1 }, false)

/-- Completion of an in-flight round-trip: the renderer's visual output
becomes the job's payload, and the `.then` callback of `update` runs
`this.rendered.update(); this.cursor.update()` unconditionally — the code
has no generation stamp and no liveness flag — so the Geometry Map is
rebuilt from the output of whichever job just resolved (modelled from the
spec for the `Rendered` bridge, which walks the current rendered output). -/
def resolveJob (s : AsyncState) (j : Job) : AsyncState :=
  if j ∈ s.pending then
    { s with
        displayed := j.payload,
        geometry := j.payload,
        caretUpdates := s.caretUpdates + 1,
        pending := s.pending.filter (fun k => k.gen != j.gen) }
  else s

/-- `destroy()` (src/index.js lines 372-376): cancels the blinker timers,
removes the container element, and unlistens the window resize handler.
Nothing else is reset — in particular nothing guards later completions. -/
def destroyCall (s : AsyncState) : AsyncState :=
  { s with
      blinkerAlive := false,
      containerAttached := false,
      windowResizeListener := false,
      destroyed := true }

/-- A live initial asynchronous state over tree value `"a"`. -/
def asyncInit : AsyncState :=
  { elementJax := true, treeValue := "a", displayed := "", geometry := "",
    caretUpdates := 0, serials := 0, pending := [], nextGen := 0,
    destroyed := false, blinkerAlive := true, windowResizeListener := true,
    containerAttached := true }

/-- The same state before the renderer has initialized (no element jax). -/
def asyncNoJax : AsyncState :=
  { asyncInit with elementJax := false }

/-- C7: while the renderer has not initialized, `update()` resolves
synchronously and performs nothing: no serialization, no submission, no
geometry or caret recomputation — the state is untouched. -/
theorem update_without_jax_inert (ph : String) (s : AsyncState)
    (h : s.elementJax = false) :
    updateCall ph s = (s, true) := by
  simp [updateCall, h]

/-- C7 witness: the inert update on a concrete uninitialized editor. -/
theorem update_without_jax_inert_witness :
    asyncNoJax.elementJax = false ∧ updateCall "ph" asyncNoJax = (asyncNoJax, true) :=
  ⟨rfl, update_without_jax_inert "ph" asyncNoJax rfl⟩

/-- C3: two updates are issued (tree `"a"`, then `"b"`), the second's
round-trip resolves first and the first's last; the completion callback has
no generation guard, so the superseded first result is applied and the
Geometry Map ends up reflecting `"a"`, not the most recently issued `"b"`. -/
theorem update_last_wins_violated :
    (resolveJob
        (resolveJob
          ((updateCall "ph" (editTree "b" ((updateCall "ph" asyncInit).1))).1)
          ⟨1, "b"⟩)
        ⟨0, "a"⟩).geometry = "a" ∧
      toDisplay
        (editTree "b" ((updateCall "ph" asyncInit).1)).treeValue "ph" = "b" ∧
      ("a" : String) ≠ "b" := by
  refine ⟨?_, ?_, by decide⟩ <;> rfl

/-- C6: an update is in flight when `destroy()` runs; when its round-trip
then resolves, the completion callback still rebuilds the Geometry Map and
recomputes the caret — there is no liveness flag — so teardown does not make
the late completion a no-op. -/
theorem destroy_liveness_violated :
    (resolveJob (destroyCall ((updateCall "ph" asyncInit).1)) ⟨0, "a"⟩).destroyed
        = true ∧
      (resolveJob (destroyCall ((updateCall "ph" asyncInit).1)) ⟨0, "a"⟩).caretUpdates
        = (destroyCall ((updateCall "ph" asyncInit).1)).caretUpdates + 1 ∧
      (resolveJob (destroyCall ((updateCall "ph" asyncInit).1)) ⟨0, "a"⟩).geometry
        ≠ (destroyCall ((updateCall "ph" asyncInit).1)).geometry := by
  refine ⟨rfl, rfl, by decide⟩

mutual

/-- The parent node of the node with the given identity (first node whose
immediate children contain it). -/
def parentNodeOfId : DomNode → Nat → Option DomNode
  | .mk i nt tag as cs, pid =>
    if cs.any (fun c => c.idOf == pid) then some (.mk i nt tag as cs)
    else parentNodeInList cs pid

/-- Forest version of `parentNodeOfId`. -/
def parentNodeInList : List DomNode → Nat → Option DomNode
  | [], _ => none
  | c :: rest, pid =>
    match parentNodeOfId c pid with
    | some r => some r
    | none => parentNodeInList rest pid

end

/-- The sibling just before the node with the given identity in a child
list. -/
def prevInList : List DomNode → Nat → Option DomNode
  | [], _ => none
  | [_], _ => none
  | c1 :: c2 :: rest, pid =>
    if c2.idOf == pid then some c1 else prevInList (c2 :: rest) pid

/-- The sibling just after the node with the given identity in a child
list. -/
def nextInList : List DomNode → Nat → Option DomNode
  | [], _ => none
  | [_], _ => none
  | c1 :: c2 :: rest, pid =>
    if c1.idOf == pid then some c2 else nextInList (c2 :: rest) pid

/-- Previous sibling of a node in the tree. -/
def prevSiblingOfId (t : DomNode) (pid : Nat) : Option DomNode :=
  (parentNodeOfId t pid).bind fun par => prevInList par.childrenOf pid

/-- Next sibling of a node in the tree. -/
def nextSiblingOfId (t : DomNode) (pid : Nat) : Option DomNode :=
  (parentNodeOfId t pid).bind fun par => nextInList par.childrenOf pid

mutual

/-- Remove the node with the given identity (and its subtree) from the
tree. -/
def removeById : DomNode → Nat → DomNode
  | .mk i nt tag as cs, pid => .mk i nt tag as (removeInList cs pid)

/-- Forest version of `removeById`. -/
def removeInList : List DomNode → Nat → List DomNode
  | [], _ => []
  | c :: rest, pid =>
    if c.idOf == pid then rest
    else removeById c pid :: removeInList rest pid

end

/-- Modelled from the spec: container kinds that are structurally-required
slots and must not be cascade-removed when emptied (§4.6 leaves the set
open; script and radical containers are the natural instances). -/
def requiredSlotTag (tag : String) : Bool :=
  tag == "msub" || tag == "msup" || tag == "msubsup" || tag == "mfrac" ||
    tag == "msqrt" || tag == "mroot"

/-- Modelled from the spec (§4.6 cascading removal): climb from the node to
be removed to the outermost ancestor that would be emptied by the removal
and is neither the root nor a structurally-required slot; that ancestor is
what actually gets removed.  `fuel` bounds the ascent by the tree size. -/
def climbTop (root : DomNode) : Nat → Nat → Nat
  | 0, pid => pid
  | fuel + 1, pid =>
    match parentNodeOfId root pid with
    | none => pid
    | some par =>
      if par.idOf == root.idOf then pid
      else if par.childrenOf.length == 1 && !(requiredSlotTag (lcc par.tagOf)) then
        climbTop root fuel par.idOf
      else pid

/-- Modelled from the spec: `applyBackspace` (src/utils/apply-backspace,
outside the excerpt) removes the node the Position references (the element
immediately before the caret), cascading over emptied non-root,
non-required containers, and returns the Position of what is now
immediately before the caret; with no Position (nothing before the caret)
it is a silent no-op returning the same tree and Position. -/
def applyBackspace (root : DomNode) (pos : Option DomNode) :
    DomNode × Option DomNode :=
  match pos with
  | none => (root, none)
  | some p =>
    let top := climbTop root (idsOf root).length p.idOf
    let newPos :=
      match prevSiblingOfId root top with
      | some s => some s
      | none =>
        match parentNodeOfId root top with
        | none => none
        | some par => if par.idOf == root.idOf then none else some par
    (removeById root top, newPos)

/-- The identity of the element immediately after the caret, if any: the
first document child for the empty Position, the first child for a
row-container Position, the next sibling otherwise. -/
def nextTargetOfDelete (root : DomNode) (pos : Option DomNode) : Option Nat :=
  match pos with
  | none => root.childrenOf.head?.map DomNode.idOf
  | some p =>
    if lcc p.tagOf == "mrow" then
      ((findById root p.idOf).bind fun r => r.childrenOf.head?).map DomNode.idOf
    else (nextSiblingOfId root p.idOf).map DomNode.idOf

/-- Modelled from the spec: `applyDelete` (src/utils/apply-delete, outside
the excerpt) is the mirror of `applyBackspace`, removing the element
immediately after the caret (with the same cascading rule); when there is
nothing after the caret it is a silent no-op returning the same tree and
Position.  The caret stays put, so the Position is returned unchanged. -/
def applyDelete (root : DomNode) (pos : Option DomNode) :
    DomNode × Option DomNode :=
  match nextTargetOfDelete root pos with
  | none => (root, pos)
  | some tid => (removeById root (climbTop root (idsOf root).length tid), pos)

/-- C4: both removal operations are total Lean functions (no error case in
their codomain, so they can never raise), and with nothing to remove in the
requested direction each returns the tree and the Position unchanged. -/
theorem removal_boundary_noop (root : DomNode) (pos : Option DomNode) :
    (pos = none → applyBackspace root pos = (root, pos)) ∧
    (nextTargetOfDelete root pos = none → applyDelete root pos = (root, pos)) := by
  constructor
  · intro h
    subst h
    rfl
  · intro h
    simp [applyDelete, h]

/-- C4 witness: backspace at the document start and delete after the last
element of a concrete document are both no-ops. -/
theorem removal_boundary_noop_witness :
    applyBackspace mathRootEx none = (mathRootEx, none) ∧
    (nextTargetOfDelete mathRootEx (some (symbolNode 2)) = none ∧
      applyDelete mathRootEx (some (symbolNode 2)) =
        (mathRootEx, some (symbolNode 2))) :=
  ⟨(removal_boundary_noop mathRootEx none).1 rfl,
    by decide,
    (removal_boundary_noop mathRootEx (some (symbolNode 2))).2 (by decide)⟩

/-- The identity-less shape of a DOM tree: nodeType, tag, attributes,
children.  Structural equality of DOM values compares exactly this. -/
inductive STree where
  | mk : Nat → String → List (String × String) → List STree → STree

mutual

/-- Forget node identities, keeping the structure. -/
def strip : DomNode → STree
  | .mk _ nt tag as cs => .mk nt tag as (stripList cs)

/-- Forest version of `strip`. -/
def stripList : List DomNode → List STree
  | [] => []
  | c :: rest => strip c :: stripList rest

end

mutual

/-- Re-identify every node of a tree with fresh consecutive identities
starting at `base`; returns the copy and the next unused identity. -/
def relabel : DomNode → Nat → DomNode × Nat
  | .mk _ nt tag as cs, base =>
    (.mk base nt tag as (relabelList cs (base + 1)).1, (relabelList cs (base + 1)).2)

/-- Forest version of `relabel`. -/
def relabelList : List DomNode → Nat → List DomNode × Nat
  | [], base => ([], base)
  | c :: rest, base =>
    ((relabel c base).1 :: (relabelList rest (relabel c base).2).1,
      (relabelList rest (relabel c base).2).2)

end

/-- The largest identity occurring in a tree. -/
def maxId (t : DomNode) : Nat :=
  (idsOf t).foldr Nat.max 0

/-- Modelled from the spec: `getCleanCopy` (src/utils/get-clean-copy,
outside the excerpt) returns "a deep, independent copy" — the same
structure under fresh node identities, as a freshly created DOM tree has. -/
def getCleanCopy (t : DomNode) : DomNode :=
  (relabel t (maxId t + 1)).1

/-- `getValue()` (src/index.js lines 344-346): `getCleanCopy(this.$value)`. -/
def Editor.getValue (ed : Editor) : DomNode :=
  getCleanCopy ed.value

mutual

/-- Mutation through a node reference, resolved by identity: set an
attribute on the node with the given identity (a no-op on trees that do not
contain that identity). -/
def setAttrById : DomNode → Nat → String → String → DomNode
  | .mk i nt tag as cs, pid, k, v =>
    if i == pid then .mk i nt tag ((k, v) :: as) cs
    else .mk i nt tag as (setAttrInList cs pid k v)

/-- Forest version of `setAttrById`. -/
def setAttrInList : List DomNode → Nat → String → String → List DomNode
  | [], _, _, _ => []
  | c :: rest, pid, k, v => setAttrById c pid k v :: setAttrInList rest pid k v

end

/-- Re-identification preserves the identity-less structure. -/
theorem strip_relabel :
    (∀ t, ∀ b : Nat, strip (relabel t b).1 = strip t) ∧
    (∀ cs, ∀ b : Nat, stripList (relabelList cs b).1 = stripList cs) := by
  apply domNode_induction
  · intro i nt tag as cs ih b
    show STree.mk nt tag as (stripList (relabelList cs (b + 1)).1) =
      STree.mk nt tag as (stripList cs)
    rw [ih (b + 1)]
  · intro b
    rfl
  · intro c rest ihc ihr b
    show strip (relabel c b).1 :: stripList (relabelList rest (relabel c b).2).1 =
      strip c :: stripList rest
    rw [ihc b, ihr (relabel c b).2]

/-- Re-identification yields only identities at or above the base, and the
returned next-identity is at least the base. -/
theorem relabel_le :
    (∀ t, ∀ b : Nat, b ≤ (relabel t b).2 ∧
      ∀ x, x ∈ idsOf (relabel t b).1 → b ≤ x) ∧
    (∀ cs, ∀ b : Nat, b ≤ (relabelList cs b).2 ∧
      ∀ x, x ∈ idsOfList (relabelList cs b).1 → b ≤ x) := by
  apply domNode_induction
  · intro i nt tag as cs ih b
    constructor
    · exact le_trans (Nat.le_succ b) (ih (b + 1)).1
    · intro x hx
      show b ≤ x
      have : x ∈ (b : Nat) :: idsOfList (relabelList cs (b + 1)).1 := hx
      rcases List.mem_cons.mp this with h | h
      · exact h ▸ le_refl b
      · exact le_trans (Nat.le_succ b) ((ih (b + 1)).2 x h)
  · intro b
    exact ⟨le_refl b, fun x hx => absurd hx (List.not_mem_nil x)⟩
  · intro c rest ihc ihr b
    constructor
    · exact le_trans (ihc b).1 (ihr (relabel c b).2).1
    · intro x hx
      have : x ∈ idsOf (relabel c b).1 ++
          idsOfList (relabelList rest (relabel c b).2).1 := hx
      rcases List.mem_append.mp this with h | h
      · exact (ihc b).2 x h
      · exact le_trans (ihc b).1 ((ihr (relabel c b).2).2 x h)

/-- Mutating an identity absent from a tree changes nothing. -/
theorem setAttr_absent :
    (∀ t, ∀ pid : Nat, ∀ k v, pid ∉ idsOf t → setAttrById t pid k v = t) ∧
    (∀ cs, ∀ pid : Nat, ∀ k v, pid ∉ idsOfList cs → setAttrInList cs pid k v = cs) := by
  apply domNode_induction
  · intro i nt tag as cs ih pid k v h
    simp only [idsOf_mk, List.mem_cons] at h
    push_neg at h
    show (if (i == pid) = true then DomNode.mk i nt tag ((k, v) :: as) cs
      else DomNode.mk i nt tag as (setAttrInList cs pid k v)) = DomNode.mk i nt tag as cs
    rw [if_neg (by simp [Ne.symm h.1]), ih pid k v h.2]
  · intro pid k v _
    rfl
  · intro c rest ihc ihr pid k v h
    simp only [idsOfList_cons, List.mem_append] at h
    push_neg at h
    show setAttrById c pid k v :: setAttrInList rest pid k v = c :: rest
    rw [ihc pid k v h.1, ihr pid k v h.2]

theorem mem_le_foldr_max (l : List Nat) (x : Nat) (h : x ∈ l) :
    x ≤ l.foldr Nat.max 0 := by
  induction l with
  | nil => simp at h
  | cons a l ih =>
    rcases List.mem_cons.mp h with h | h
    · exact h ▸ Nat.le_max_left a (l.foldr Nat.max 0)
    · exact le_trans (ih h) (Nat.le_max_right a (l.foldr Nat.max 0))

theorem relabel_nodeTypeOf (t : DomNode) (b : Nat) :
    (relabel t b).1.nodeTypeOf = t.nodeTypeOf := by
  cases t
  rfl

theorem relabel_tagOf (t : DomNode) (b : Nat) :
    (relabel t b).1.tagOf = t.tagOf := by
  cases t
  rfl

/-- Every identity of the clean copy is fresh: absent from the source. -/
theorem getCleanCopy_fresh (t : DomNode) :
    ∀ x, x ∈ idsOf (getCleanCopy t) → x ∉ idsOf t := by
  intro x hx hin
  have hge : maxId t + 1 ≤ x := (relabel_le.1 t (maxId t + 1)).2 x hx
  have hle : x ≤ maxId t := mem_le_foldr_max (idsOf t) x hin
  omega

/-- C5: `getValue` hands out a structurally equal copy built from fresh
node identities; feeding it back through `setValue` succeeds and another
`getValue` returns the same structure (lossless round-trip); and mutating
any node of the returned copy (resolved by identity, as DOM references are)
leaves the editor's internal tree untouched. -/
theorem getValue_copy_spec (toDom : String → DomNode) (ed : Editor)
    (h1 : ed.value.nodeTypeOf = 1) (h2 : lcc2 ed.value.tagOf "math" = true) :
    (ed.setValue toDom (.node ed.getValue)).2 = none ∧
    strip ((ed.setValue toDom (.node ed.getValue)).1.getValue) =
      strip ed.getValue ∧
    strip ed.getValue = strip ed.value ∧
    (∀ pid, pid ∈ idsOf ed.getValue → ∀ k v,
      setAttrById ed.value pid k v = ed.value) := by
  have hnt : ed.getValue.nodeTypeOf = 1 := by
    rw [Editor.getValue, getCleanCopy, relabel_nodeTypeOf, h1]
  have htag : lcc2 ed.getValue.tagOf "math" = true := by
    rw [Editor.getValue, getCleanCopy, relabel_tagOf, h2]
  have hok : ed.setValue toDom (.node ed.getValue) =
      ({ ed with value := ed.getValue, cursorPos := none }, none) := by
    simp [Editor.setValue, hnt, htag]
  refine ⟨by rw [hok], ?_, ?_, ?_⟩
  · rw [hok]
    show strip (getCleanCopy ed.getValue) = strip ed.getValue
    rw [getCleanCopy, strip_relabel.1]
  · rw [Editor.getValue, getCleanCopy, strip_relabel.1]
  · intro pid hpid k v
    exact setAttr_absent.1 ed.value pid k v (getCleanCopy_fresh ed.value pid hpid)

/-- C5 witness: the round-trip and a copy-mutation no-op on a concrete
editor. -/
theorem getValue_copy_spec_witness :
    (edEx.setValue toDomText (.node edEx.getValue)).2 = none ∧
    strip ((edEx.setValue toDomText (.node edEx.getValue)).1.getValue) =
      strip edEx.getValue := by
  have h := getValue_copy_spec toDomText edEx rfl (by decide)
  exact ⟨h.1, h.2.1⟩

end MathjaxEditor
